import Mathlib

set_option linter.unusedVariables false
set_option maxRecDepth 8192

namespace ZipGo

/-!
Shallow embedding of the zipgo generator (src/main.go) and of the extractor
template it emits (src/unnamed/part_000).  Bytes are modelled as `Nat` values
with the invariant `< 256` carried as a hypothesis; Go strings of ASCII text
are modelled as `List Char`.
-/

/-- The standard base64 alphabet used by Go's `encoding/base64` `StdEncoding`,
which `encode` in src/main.go calls through `EncodeToString`. -/
def b64Alphabet : List Char :=
  "ABCDEFGHIJKLMNOPQRSTUVWXYZabcdefghijklmnopqrstuvwxyz0123456789+/".data

/-- The base64 digit character for a 6-bit value. -/
def b64Char (i : Nat) : Char := b64Alphabet.getD i 'A'

/-- Go `base64.StdEncoding.EncodeToString`: groups of three bytes become four
alphabet characters; a trailing group of one or two bytes is padded with `=`.
Shifts and masks of the Go implementation are expressed with `/` and `%`. -/
def encB64 : List Nat → List Char
  | [] => []
  | [a] => [b64Char (a / 4), b64Char (a % 4 * 16), '=', '=']
  | [a, b] => [b64Char (a / 4), b64Char (a % 4 * 16 + b / 16), b64Char (b % 16 * 4), '=']
  | a :: b :: c :: rest =>
      b64Char (a / 4) :: b64Char (a % 4 * 16 + b / 16) ::
        b64Char (b % 16 * 4 + c / 64) :: b64Char (c % 64) :: encB64 rest

/-- Index of a character in an alphabet, the decode map of Go's
`encoding/base64` decoder. -/
def alphaIdx (c : Char) : List Char → Nat → Option Nat
  | [], _ => none
  | a :: rest, i => if a = c then some i else alphaIdx c rest (i + 1)

/-- Decode one base64 alphabet character to its 6-bit value. -/
def decodeChar (c : Char) : Option Nat := alphaIdx c b64Alphabet 0

/-- Go's base64 decoder ignores the characters `\r` and `\n` wherever they
appear in the input. -/
def stripNewlines (s : List Char) : List Char :=
  s.filter fun c => !(c == '\n' || c == '\x0d')

/-- Quad-at-a-time base64 decoding as done by Go's `StdEncoding` decoder on
well-formed input: four characters yield three bytes, with `=` padding allowed
only in the final quad. -/
def parseQuads : List Char → Option (List Nat)
  | c1 :: c2 :: c3 :: c4 :: rest =>
    match decodeChar c1, decodeChar c2 with
    | some i1, some i2 =>
      if c3 = '=' then
        if c4 = '=' then
          if rest = [] then some [i1 * 4 + i2 / 16] else none
        else none
      else
        match decodeChar c3 with
        | some i3 =>
          if c4 = '=' then
            if rest = [] then some [i1 * 4 + i2 / 16, i2 % 16 * 16 + i3 / 4] else none
          else
            match decodeChar c4 with
            | some i4 =>
              match parseQuads rest with
              | some bs => some ((i1 * 4 + i2 / 16) :: (i2 % 16 * 16 + i3 / 4) ::
                  (i3 % 4 * 64 + i4) :: bs)
              | none => none
            | none => none
        | none => none
    | _, _ => none
  | [] => some []
  | _ => none

/-- Go `base64.StdEncoding.DecodeString` as invoked by the emitted `Unzip`
routine (template `suffixString` in src/main.go): line-break characters are
ignored, then the text is decoded quad by quad. -/
def goDecode (s : List Char) : Option (List Nat) := parseQuads (stripNewlines s)

/-- The backquote character delimiting a Go raw string literal. -/
def backquote : Char := Char.ofNat 96

/-- The loop body of `encode` in src/main.go: `acc` is the contents of the
`strings.Builder` so far; before each character is appended, a newline is
appended whenever the builder length is a multiple of 60. -/
def wrapAux : List Char → List Char → List Char
  | acc, [] => acc
  | acc, ch :: rest =>
      wrapAux ((if acc.length % 60 = 0 then acc ++ ['\n'] else acc) ++ [ch]) rest

/-- The `encode` function of src/main.go: base64-encode the data, then emit a
backquote, the text with a newline inserted whenever the builder length is a
multiple of 60, and a closing backquote. -/
def encode (data : List Nat) : List Char :=
  wrapAux [backquote] (encB64 data) ++ [backquote]

/-- The value of the emitted raw string literal: the text between the opening
and the closing backquote. -/
def rawValue (s : List Char) : List Char := (s.drop 1).dropLast

/-- A character that may appear in the base64 text proper: an alphabet
character or the padding character. -/
def validLitChar (c : Char) : Bool := (decodeChar c).isSome || c == '='

/-- The tail of the builder contents produced by `wrapAux` past its initial
accumulator, parameterized only by the accumulator length `n`. -/
def wrapTail (n : Nat) : List Char → List Char
  | [] => []
  | ch :: rest =>
      if n % 60 = 0 then '\n' :: ch :: wrapTail (n + 2) rest
      else ch :: wrapTail (n + 1) rest

/-- Lengths of the maximal runs of non-newline characters of a string, `cur`
being the length of the run currently open. -/
def runLens (cur : Nat) : List Char → List Nat
  | [] => [cur]
  | c :: rest => if c = '\n' then cur :: runLens 0 rest else runLens (cur + 1) rest

/- ### Basic facts about the base64 alphabet -/

theorem decodeChar_b64Char : ∀ i : Fin 64, decodeChar (b64Char i.val) = some i.val := by
  decide

theorem decodeChar_lt (i : Nat) (h : i < 64) : decodeChar (b64Char i) = some i :=
  decodeChar_b64Char ⟨i, h⟩

theorem decodeChar_pad : decodeChar '=' = none := by decide

theorem b64Char_ne_pad (i : Nat) (h : i < 64) : b64Char i ≠ '=' := by
  intro he
  have h1 := decodeChar_lt i h
  rw [he, decodeChar_pad] at h1
  cases h1

/- ### Round trip of the base64 core -/

theorem parse_encB64 : ∀ bs : List Nat, (∀ x ∈ bs, x < 256) →
    parseQuads (encB64 bs) = some bs
  | [], _ => rfl
  | [a], h => by
    have ha : a < 256 := h a (by simp)
    have h1 := decodeChar_lt (a / 4) (by omega)
    have h2 := decodeChar_lt (a % 4 * 16) (by omega)
    simp only [encB64, parseQuads, h1, h2, if_pos rfl]
    simp
    omega
  | [a, b], h => by
    have ha : a < 256 := h a (by simp)
    have hb : b < 256 := h b (by simp)
    have h1 := decodeChar_lt (a / 4) (by omega)
    have h2 := decodeChar_lt (a % 4 * 16 + b / 16) (by omega)
    have h3 := decodeChar_lt (b % 16 * 4) (by omega)
    have hne3 := b64Char_ne_pad (b % 16 * 4) (by omega)
    simp only [encB64, parseQuads, h1, h2, h3, if_neg hne3, if_pos rfl]
    simp
    omega
  | a :: b :: c :: rest, h => by
    have ha : a < 256 := h a (by simp)
    have hb : b < 256 := h b (by simp)
    have hc : c < 256 := h c (by simp)
    have h1 := decodeChar_lt (a / 4) (by omega)
    have h2 := decodeChar_lt (a % 4 * 16 + b / 16) (by omega)
    have h3 := decodeChar_lt (b % 16 * 4 + c / 64) (by omega)
    have h4 := decodeChar_lt (c % 64) (by omega)
    have hne3 := b64Char_ne_pad (b % 16 * 4 + c / 64) (by omega)
    have hne4 := b64Char_ne_pad (c % 64) (by omega)
    have hrest := parse_encB64 rest (fun x hx => h x (by simp [hx]))
    simp only [encB64, parseQuads, h1, h2, h3, h4, if_neg hne3, if_neg hne4, hrest]
    simp
    omega

/- ### Characters produced by the encoder -/

theorem validLitChar_b64 (i : Nat) (h : i < 64) : validLitChar (b64Char i) = true := by
  simp [validLitChar, decodeChar_lt i h]

theorem validLitChar_pad : validLitChar '=' = true := by decide

theorem encB64_valid : ∀ bs : List Nat, (∀ x ∈ bs, x < 256) →
    ∀ c ∈ encB64 bs, validLitChar c = true
  | [], _ => by simp [encB64]
  | [a], h => by
    have ha : a < 256 := h a (by simp)
    intro c hc
    simp only [encB64, List.mem_cons, List.not_mem_nil, or_false] at hc
    rcases hc with rfl | rfl | rfl | rfl
    · exact validLitChar_b64 _ (by omega)
    · exact validLitChar_b64 _ (by omega)
    · exact validLitChar_pad
    · exact validLitChar_pad
  | [a, b], h => by
    have ha : a < 256 := h a (by simp)
    have hb : b < 256 := h b (by simp)
    intro c hc
    simp only [encB64, List.mem_cons, List.not_mem_nil, or_false] at hc
    rcases hc with rfl | rfl | rfl | rfl
    · exact validLitChar_b64 _ (by omega)
    · exact validLitChar_b64 _ (by omega)
    · exact validLitChar_b64 _ (by omega)
    · exact validLitChar_pad
  | a :: b :: c :: rest, h => by
    have ha : a < 256 := h a (by simp)
    have hb : b < 256 := h b (by simp)
    have hc : c < 256 := h c (by simp)
    intro d hd
    simp only [encB64, List.mem_cons] at hd
    rcases hd with rfl | rfl | rfl | rfl | hm
    · exact validLitChar_b64 _ (by omega)
    · exact validLitChar_b64 _ (by omega)
    · exact validLitChar_b64 _ (by omega)
    · exact validLitChar_b64 _ (by omega)
    · exact encB64_valid rest (fun x hx => h x (by simp [hx])) d hm

theorem validLitChar_ne (c : Char) (h : validLitChar c = true) :
    c ≠ '\n' ∧ c ≠ '\x0d' ∧ c ≠ backquote ∧ c ≠ '\\' := by
  refine ⟨?_, ?_, ?_, ?_⟩ <;> rintro rfl <;> revert h <;> decide

theorem stripNewlines_of_valid (s : List Char) (h : ∀ c ∈ s, validLitChar c = true) :
    stripNewlines s = s := by
  apply List.filter_eq_self.mpr
  intro c hc
  have h1 := (validLitChar_ne c (h c hc)).1
  have h2 := (validLitChar_ne c (h c hc)).2.1
  simp [h1, h2]

theorem stripNewlines_idem (s : List Char) :
    stripNewlines (stripNewlines s) = stripNewlines s := by
  apply List.filter_eq_self.mpr
  intro c hc
  exact (List.mem_filter.mp hc).2

/- ### The line-wrapping loop -/

theorem wrapAux_eq : ∀ (t acc : List Char), wrapAux acc t = acc ++ wrapTail acc.length t
  | [], acc => by simp [wrapAux, wrapTail]
  | ch :: rest, acc => by
    simp only [wrapAux, wrapTail]
    by_cases h : acc.length % 60 = 0
    · simp only [if_pos h, wrapAux_eq rest]
      have hl : ((acc ++ ['\n']) ++ [ch]).length = acc.length + 2 := by simp
      rw [hl]
      simp [List.append_assoc]
    · simp only [if_neg h, wrapAux_eq rest]
      have hl : (acc ++ [ch]).length = acc.length + 1 := by simp
      rw [hl]
      simp [List.append_assoc]

theorem stripNewlines_cons (c : Char) (l : List Char) :
    stripNewlines (c :: l) =
      if (c == '\n' || c == '\x0d') = true then stripNewlines l
      else c :: stripNewlines l := by
  cases hb : (c == '\n' || c == '\x0d') with
  | true =>
    simp [stripNewlines, List.filter_cons, hb]
    simp at hb
    tauto
  | false =>
    simp [stripNewlines, List.filter_cons, hb]
    simp at hb
    tauto

theorem strip_wrapTail : ∀ (t : List Char) (n : Nat),
    stripNewlines (wrapTail n t) = stripNewlines t
  | [], n => rfl
  | ch :: rest, n => by
    by_cases h : n % 60 = 0
    · simp only [wrapTail, if_pos h]
      rw [stripNewlines_cons '\n', if_pos (by decide), stripNewlines_cons ch,
        stripNewlines_cons ch, strip_wrapTail rest]
    · simp only [wrapTail, if_neg h]
      rw [stripNewlines_cons ch, stripNewlines_cons ch, strip_wrapTail rest]

theorem mem_wrapTail : ∀ (t : List Char) (n : Nat) (c : Char),
    c ∈ wrapTail n t → c = '\n' ∨ c ∈ t
  | [], n, c => by simp [wrapTail]
  | ch :: rest, n, c => by
    by_cases h : n % 60 = 0
    · simp only [wrapTail, if_pos h, List.mem_cons]
      rintro (rfl | rfl | hm)
      · left; rfl
      · right; simp
      · rcases mem_wrapTail rest (n + 2) c hm with h1 | h1
        · left; exact h1
        · right; simp [h1]
    · simp only [wrapTail, if_neg h, List.mem_cons]
      rintro (rfl | hm)
      · right; simp
      · rcases mem_wrapTail rest (n + 1) c hm with h1 | h1
        · left; exact h1
        · right; simp [h1]

theorem rawValue_encode (b : List Nat) :
    rawValue (encode b) = wrapTail 1 (encB64 b) := by
  unfold encode rawValue
  rw [wrapAux_eq]
  simp

theorem encode_cons (b : List Nat) :
    encode b = backquote :: (wrapTail 1 (encB64 b) ++ [backquote]) := by
  unfold encode
  rw [wrapAux_eq]
  simp

/- ### Run lengths of the wrapped literal -/

theorem runLens_ne_nil : ∀ (cur : Nat) (l : List Char), runLens cur l ≠ []
  | cur, [] => by simp [runLens]
  | cur, c :: rest => by
    by_cases h : c = '\n'
    · simp [runLens, h]
    · simp only [runLens, if_neg h]
      exact runLens_ne_nil (cur + 1) rest

theorem runsSharp : ∀ (t : List Char) (n cur : Nat),
    (∀ c ∈ t, c ≠ '\n') → n % 60 = (cur + 1) % 60 → 1 ≤ cur → cur ≤ 59 →
    ∀ r ∈ (runLens cur (wrapTail n t ++ [backquote])).dropLast, r = 59
  | [], n, cur, hnl, hm, h1, h59 => by
    intro r hr
    have hbq : ¬ (backquote = '\n') := by decide
    simp only [wrapTail, List.nil_append, runLens, if_neg hbq] at hr
    simp at hr
  | ch :: t', n, cur, hnl, hm, h1, h59 => by
    have hch : ch ≠ '\n' := hnl ch (by simp)
    by_cases h : n % 60 = 0
    · have hcur : cur = 59 := by omega
      subst hcur
      simp only [wrapTail, if_pos h, List.cons_append]
      intro r hr
      simp only [runLens, if_pos rfl, if_neg hch] at hr
      obtain ⟨m, ms, hM⟩ :=
        List.exists_cons_of_ne_nil (runLens_ne_nil 1 (wrapTail (n + 2) t' ++ [backquote]))
      rw [hM] at hr
      simp only [List.dropLast, List.mem_cons] at hr
      rcases hr with rfl | hr
      · rfl
      · have hrec := runsSharp t' (n + 2) 1 (fun c hc => hnl c (by simp [hc]))
          (by omega) (by omega) (by omega) r
        rw [hM] at hrec
        exact hrec hr
    · simp only [wrapTail, if_neg h, List.cons_append]
      intro r hr
      simp only [runLens, if_neg hch] at hr
      exact runsSharp t' (n + 1) (cur + 1) (fun c hc => hnl c (by simp [hc]))
        (by omega) (by omega) (by omega) r hr

theorem runsInit : ∀ (t : List Char) (n cur : Nat),
    (∀ c ∈ t, c ≠ '\n') → n % 60 = cur % 60 → 1 ≤ cur → cur ≤ 60 →
    ∀ r ∈ ((runLens cur (wrapTail n t ++ [backquote])).drop 1).dropLast, r = 59
  | [], n, cur, hnl, hm, h1, h60 => by
    intro r hr
    have hbq : ¬ (backquote = '\n') := by decide
    simp only [wrapTail, List.nil_append, runLens, if_neg hbq] at hr
    simp at hr
  | ch :: t', n, cur, hnl, hm, h1, h60 => by
    have hch : ch ≠ '\n' := hnl ch (by simp)
    by_cases h : n % 60 = 0
    · have hcur : cur = 60 := by omega
      subst hcur
      simp only [wrapTail, if_pos h, List.cons_append]
      intro r hr
      simp only [runLens, if_pos rfl, if_neg hch, List.drop_succ_cons, List.drop_zero] at hr
      exact runsSharp t' (n + 2) 1 (fun c hc => hnl c (by simp [hc]))
        (by omega) (by omega) (by omega) r hr
    · simp only [wrapTail, if_neg h, List.cons_append]
      intro r hr
      simp only [runLens, if_neg hch] at hr
      exact runsInit t' (n + 1) (cur + 1) (fun c hc => hnl c (by simp [hc]))
        (by omega) (by omega) (by omega) r hr

/- ### Claim C1: the base64 decoder inverts the encoder on every literal -/

theorem roundtrip_core (b : List Nat) (h : ∀ x ∈ b, x < 256) :
    goDecode (rawValue (encode b)) = some b := by
  rw [rawValue_encode]
  show parseQuads (stripNewlines (wrapTail 1 (encB64 b))) = some b
  rw [strip_wrapTail, stripNewlines_of_valid _ (encB64_valid b h), parse_encB64 b h]

/-- C1: for every byte sequence `b`, decoding the value of the raw-string
literal produced by `encode b` with the base64 decoder that ignores line-break
characters (Go `base64.StdEncoding.DecodeString`, as the emitted `Unzip`
routine does) yields exactly `b`. -/
theorem goDecode_encode (b : List Nat) (h : ∀ x ∈ b, x < 256) :
    goDecode (rawValue (encode b)) = some b :=
  roundtrip_core b h

theorem goDecode_encode_witness :
    goDecode (rawValue (encode [])) = some [] ∧
    goDecode (rawValue (encode [0, 0, 0, 0])) = some [0, 0, 0, 0] ∧
    goDecode (rawValue (encode [255, 255, 255])) = some [255, 255, 255] :=
  ⟨goDecode_encode [] (by decide), goDecode_encode [0, 0, 0, 0] (by decide),
    goDecode_encode [255, 255, 255] (by decide)⟩

/- ### Claim C5: the inserted line breaks carry no data -/

/-- C5: removing all inserted line-break characters from the encoded literal
and then decoding yields the same bytes as decoding with the breaks present,
and both equal the original sequence. -/
theorem stripped_decode_eq (b : List Nat) (h : ∀ x ∈ b, x < 256) :
    goDecode (stripNewlines (rawValue (encode b))) = goDecode (rawValue (encode b)) ∧
    goDecode (rawValue (encode b)) = some b := by
  constructor
  · show parseQuads (stripNewlines (stripNewlines (rawValue (encode b)))) =
        parseQuads (stripNewlines (rawValue (encode b)))
    rw [stripNewlines_idem]
  · exact roundtrip_core b h

theorem stripped_decode_eq_witness :
    goDecode (stripNewlines (rawValue (encode [1, 2, 3, 4]))) =
      goDecode (rawValue (encode [1, 2, 3, 4])) ∧
    goDecode (rawValue (encode [1, 2, 3, 4])) = some [1, 2, 3, 4] :=
  stripped_decode_eq [1, 2, 3, 4] (by decide)

/- ### Claim C10: the encoder output is a well-formed raw string literal -/

/-- C10: the output of `encode` begins and ends with a backquote, and every
interior character is a base64 alphabet character, the padding character `=`,
or a newline — never a backquote and never a backslash — so the output is a
syntactically valid Go raw-string literal. -/
theorem encode_raw_literal (b : List Nat) (h : ∀ x ∈ b, x < 256) :
    (encode b).head? = some backquote ∧ (encode b).getLast? = some backquote ∧
    ∀ c ∈ rawValue (encode b),
      (validLitChar c = true ∨ c = '\n') ∧ c ≠ backquote ∧ c ≠ '\\' := by
  refine ⟨?_, ?_, ?_⟩
  · rw [encode_cons b]
    rfl
  · unfold encode
    simp
  · intro c hc
    rw [rawValue_encode] at hc
    rcases mem_wrapTail _ _ _ hc with rfl | hm
    · exact ⟨Or.inr rfl, by decide, by decide⟩
    · have hv := encB64_valid b h c hm
      have hne := validLitChar_ne c hv
      exact ⟨Or.inl hv, hne.2.2.1, hne.2.2.2⟩

theorem encode_raw_literal_witness :
    (encode [65, 66]).head? = some backquote ∧
    (encode [65, 66]).getLast? = some backquote ∧
    (rawValue (encode [65, 66])).all
      (fun c => (validLitChar c || c == '\n') &&
        (!(c == backquote) && !(c == '\\'))) = true :=
  ⟨(encode_raw_literal [65, 66] (by decide)).1,
    (encode_raw_literal [65, 66] (by decide)).2.1, by decide⟩

/- ### Claim C6: positions of the inserted line breaks -/

/-- C6 as stated is false on the code: with ninety zero bytes the literal's
maximal runs of non-newline characters have lengths 60, 59 and 3 (59, 59 and
2 between the backquotes), so a non-final run of length 59 exists; the breaks
fall at multiples of 60 of the builder length, which counts the opening
backquote and the previously inserted breaks. -/
theorem wrap60_counterexample :
    runLens 0 (encode (List.replicate 90 0)) = [60, 59, 3] ∧
    ((runLens 0 (encode (List.replicate 90 0))).dropLast).all
      (fun r => r == 60) = false ∧
    ((runLens 0 (rawValue (encode (List.replicate 90 0)))).dropLast).all
      (fun r => r == 60) = false :=
  ⟨by decide, by decide, by decide⟩

/-- C6 amended: the encoder emits a line break whenever the accumulated output
length — which counts the opening backquote and all previously inserted
breaks — is a multiple of 60; consequently every maximal run of non-newline
characters other than the first and the final one has length exactly 59. -/
theorem wrap60_interior (b : List Nat) (h : ∀ x ∈ b, x < 256) :
    ∀ r ∈ ((runLens 0 (encode b)).drop 1).dropLast, r = 59 := by
  have hnl : ∀ c ∈ encB64 b, c ≠ '\n' :=
    fun c hc => (validLitChar_ne c (encB64_valid b h c hc)).1
  rw [encode_cons b]
  have hbq : ¬ (backquote = '\n') := by decide
  simp only [runLens, if_neg hbq]
  exact runsInit (encB64 b) 1 1 hnl rfl (by omega) (by omega)

theorem wrap60_interior_witness :
    ((runLens 0 (encode (List.replicate 90 0))).drop 1).dropLast = [59] := by
  have hall := wrap60_interior (List.replicate 90 0) (by decide)
  decide

/- ### The generator: header and footer templates of src/main.go -/

/-- The template constant `shortPrefixString` of src/main.go: the minimal
header emitted in data-only mode, with a `%s` verb for the package name.
Literal braces of the Go text are written with hexadecimal escapes. -/
def shortPrefixString : List Char := "\npackage %s\n\nconst zipdata = ".data

/-- The template constant `prefixString` of src/main.go: the full header with
the imports the extraction routine needs. -/
def prefixString : List Char :=
  "\npackage %s\n\nimport (\n\t\"archive/zip\"\n\t\"bytes\"\n\t\"encoding/base64\"\n\t\"io\"\n\t\"os\"\n\t\"path/filepath\"\n)\n\nconst zipdata = ".data

/-- The template constant `suffixString` of src/main.go: the fixed extraction
routine appended after the constant unless data-only mode is selected. -/
def suffixString : List Char :=
  "\n\n// Unzip extracts the zip data to the file system.\nfunc Unzip(path string) error \x7b\n\t// Decode the zip data.\n\tdata, err := base64.StdEncoding.DecodeString(zipdata)\n\tif err != nil \x7b\n\t\treturn err\n\t\x7d\n\n\t// Open the zip archive.\n\tr, err := zip.NewReader(bytes.NewReader(data), int64(len(data)))\n\tif err != nil \x7b\n\t\treturn err\n\t\x7d\n\n\t// Extract the files in the archive.\n\tfor _, f := range r.File \x7b\n\t\tif err := extractFile(f, path); err != nil \x7b\n\t\t\treturn err\n\t\t\x7d\n\t\x7d\n\n\treturn nil\n\x7d\n\n// extractFile extracts a single file from the zip archive.\nfunc extractFile(f *zip.File, path string) error \x7b\n\t// Open the file in the archive.\n\trc, err := f.Open()\n\tif err != nil \x7b\n\t\treturn err\n\t\x7d\n\n\tdefer rc.Close()\n\n\t// Create the file in the file system.\n\tpath = filepath.Join(path, f.Name)\n\tif f.FileInfo().IsDir() \x7b\n\t\tif err := os.MkdirAll(path, 0755); err != nil \x7b\n\t\t\treturn err\n\t\t\x7d\n\t\x7d else \x7b\n\t\tif err := os.MkdirAll(filepath.Dir(path), 0755); err != nil \x7b\n\t\t\treturn err\n\t\t\x7d\n\n\t\tf, err := os.Create(path)\n\t\tif err != nil \x7b\n\t\t\treturn err\n\t\t\x7d\n\t\tdefer f.Close()\n\n\t\t// Copy the file contents.\n\t\tif _, err := io.Copy(f, rc); err != nil \x7b\n\t\t\treturn err\n\t\t\x7d\n\t\x7d\n\n\treturn nil\n\x7d\n\n".data

/-- Go `fmt.Sprintf` restricted to the single `%s` verb these templates use:
the first occurrence of `%s` is replaced by the argument. -/
def sprintf1 : List Char → List Char → List Char
  | [], _ => []
  | '%' :: 's' :: rest, arg => arg ++ rest
  | c :: rest, arg => c :: sprintf1 rest arg

/-- The two newline characters `main` writes after the encoded literal to
close out the string constant. -/
def literalClose : List Char := "\n\n".data

/-- The text written to the output file by `main` in src/main.go on the
success path: the header selected by the data flag, the encoded literal, the
literal-closing newlines, and — unless the data flag is set — the extraction
routine template. -/
def genOutput (dataOnly : Bool) (pkg : List Char) (zipBytes : List Nat) : List Char :=
  sprintf1 (if dataOnly then shortPrefixString else prefixString) pkg
    ++ encode zipBytes ++ literalClose
    ++ (if dataOnly then [] else suffixString)

/-- The byte count accumulated by `main` in `size`: the sum of the counts
returned by the successive `WriteString` calls. -/
def genSize (dataOnly : Bool) (pkg : List Char) (zipBytes : List Nat) : Nat :=
  (sprintf1 (if dataOnly then shortPrefixString else prefixString) pkg).length
    + (encode zipBytes).length + literalClose.length
    + (if dataOnly then 0 else suffixString.length)

/-- C7: when the data-only flag is set the generated output is the minimal
header followed by the encoded literal and the closing newlines, with no
extraction routine appended; otherwise it is the full header, the literal,
the closing newlines, and the fixed extraction-routine text. -/
theorem genOutput_modes (pkg : List Char) (zipBytes : List Nat) :
    genOutput true pkg zipBytes =
      sprintf1 shortPrefixString pkg ++ encode zipBytes ++ literalClose ∧
    genOutput false pkg zipBytes =
      sprintf1 prefixString pkg ++ encode zipBytes ++ literalClose ++ suffixString := by
  constructor
  · simp [genOutput]
  · simp [genOutput, List.append_assoc]

/-- C8: the byte count reported on success equals the total number of text
characters written: the sum of the segment lengths is the length of the
concatenated output. -/
theorem genSize_eq (dataOnly : Bool) (pkg : List Char) (zipBytes : List Nat) :
    genSize dataOnly pkg zipBytes = (genOutput dataOnly pkg zipBytes).length := by
  cases dataOnly <;> simp [genSize, genOutput] <;> omega

/- ### Claim C9: output file extension handling -/

/-- Go `filepath.Ext`: scan the path from its end; stop at a path separator;
the extension is the suffix beginning at the final dot, or empty if no dot is
found.  The first argument is the reversed remainder of the path, the second
the characters already scanned, in original order. -/
def extFrom : List Char → List Char → List Char
  | [], _ => []
  | c :: rest, seen =>
      if c = '/' then []
      else if c = '.' then '.' :: seen
      else extFrom rest (c :: seen)

/-- Go `filepath.Ext` on a path. -/
def goExt (s : List Char) : List Char := extFrom s.reverse []

/-- Handling of the `-o`/`--output` argument in `main` (src/main.go): a name
with no extension gets `.go` appended; any extension other than `.go` is
rejected (`none`, modelling the error message and the non-zero exit before
the pipeline runs); a `.go` name is used unchanged. -/
def processOutputArg (arg : List Char) : Option (List Char) :=
  let ext := goExt arg
  if ext = [] then some (arg ++ ".go".data)
  else if ext ≠ ".go".data then none
  else some arg

/-- C9: an output name with no extension gets `.go` appended; a name with any
other extension is rejected before generation; a name ending in `.go` is used
unchanged. -/
theorem output_extension (arg : List Char) :
    (goExt arg = [] → processOutputArg arg = some (arg ++ ".go".data)) ∧
    (goExt arg ≠ [] → goExt arg ≠ ".go".data → processOutputArg arg = none) ∧
    (goExt arg = ".go".data → processOutputArg arg = some arg) := by
  refine ⟨?_, ?_, ?_⟩
  · intro h
    simp [processOutputArg, h]
  · intro h1 h2
    simp [processOutputArg, h1, h2]
  · intro h
    have hne : (".go".data : List Char) ≠ [] := by decide
    simp [processOutputArg, h, hne]

theorem output_extension_witness :
    processOutputArg "out".data = some ("out".data ++ ".go".data) ∧
    processOutputArg "out.txt".data = none ∧
    processOutputArg "out.go".data = some "out.go".data :=
  ⟨(output_extension "out".data).1 (by decide),
    (output_extension "out.txt".data).2.1 (by decide) (by decide),
    (output_extension "out.go".data).2.2 (by decide)⟩

/- ### The walker and archiver of src/main.go -/

/-- Go `filepath.Join` restricted to the clean, slash-free component names the
walker passes it: joining with an empty first part yields the second,
otherwise the parts are joined with a slash. -/
def joinPath (a b : List Char) : List Char :=
  if a = [] then b else a ++ '/' :: b

/-- One entry of the zip container: name, uncompressed content, directory
flag.  `zip.Writer.Create` makes a file entry whose content is what is
written to the returned writer. -/
structure ZipEntry where
  name : List Char
  content : List Nat
  isDir : Bool
deriving DecidableEq

/-- An in-memory file tree standing for the file system the walker reads:
`file` carries the content `os.ReadFile` returns, `dir` the children
`Readdir` returns, in directory-listing order. -/
inductive FNode where
  | file : List Char → List Nat → FNode
  | dir : List Char → List FNode → FNode

/-- `addFile` of src/main.go: the zip entry is created with `w.Create(path)`
— the on-disk path — and filled with the file content; the `prefix`
parameter is received but never used. -/
def addFileM (path pfx : List Char) (content : List Nat) : List ZipEntry :=
  [⟨path, content, false⟩]

mutual

/-- The body of the member loop of `addDir` in src/main.go: a subdirectory
recurses with both path and prefix extended by the member name; a file is
added with `addFile` at the joined path and the unchanged prefix.  No entry
is created for a directory itself. -/
def addMemberM : List Char → List Char → FNode → List ZipEntry
  | p, pfx, FNode.file nm content => addFileM (joinPath p nm) pfx content
  | p, pfx, FNode.dir nm cs => addDirM (joinPath p nm) (joinPath pfx nm) cs

/-- `addDir` of src/main.go: iterate over the directory members in listing
order, concatenating the entries each produces. -/
def addDirM : List Char → List Char → List FNode → List ZipEntry
  | _, _, [] => []
  | p, pfx, c :: rest => addMemberM p pfx c ++ addDirM p pfx rest

end

/-- `addFiles` of src/main.go: stat the root; a directory goes to `addDir`
with the same path and prefix, a plain file to `addFile`. -/
def addFilesM (p pfx : List Char) (root : FNode) : List ZipEntry :=
  match root with
  | FNode.file _ content => addFileM p pfx content
  | FNode.dir _ cs => addDirM p pfx cs

/-- C2 (code bug): archiving a directory holding exactly one file `a.txt`
with content "hi" and one empty subdirectory `sub` yields a container with
exactly one entry — the file, named by its on-disk path — and no directory
entry for `sub`: `addDir` never creates an entry for a directory, and
`addFile` passes the on-disk path, not an archive-relative name, to
`w.Create`. -/
theorem archive_scenario_entries :
    addFilesM "root".data [] (FNode.dir "root".data
        [FNode.file "a.txt".data [104, 105], FNode.dir "sub".data []]) =
      [⟨"root/a.txt".data, [104, 105], false⟩] ∧
    (addFilesM "root".data [] (FNode.dir "root".data
        [FNode.file "a.txt".data [104, 105], FNode.dir "sub".data []])).length = 1 := by
  constructor
  · simp only [addFilesM, addDirM, addMemberM, addFileM, joinPath]
    decide
  · simp only [addFilesM, addDirM, addMemberM, addFileM, joinPath]
    decide

/-- C3 (code bug): entries are named by the full on-disk path, not an
archive-relative name: archiving the directory `/d` containing `a.txt` yields
the single entry name `/d/a.txt`, which carries the root prefix and a leading
slash, because `addFile` ignores its `prefix` parameter. -/
theorem entry_name_full_path :
    (addFilesM "/d".data [] (FNode.dir "d".data
        [FNode.file "a.txt".data [104]])).map ZipEntry.name = ["/d/a.txt".data] ∧
    ("/d/a.txt".data).head? = some '/' := by
  constructor
  · simp only [addFilesM, addDirM, addMemberM, addFileM, joinPath]
    decide
  · decide

/- ### The emitted extractor of src/unnamed/part_000 -/

/-- A file system as the emitted extractor sees it: regular files with their
content, and the directories created so far. -/
structure FileSys where
  files : List (List Char × List Nat)
  dirs : List (List Char)
deriving DecidableEq

/-- Go `os.Stat` reduced to existence of a regular file. -/
def fileExists (fs : FileSys) (p : List Char) : Bool :=
  fs.files.any fun q => q.1 == p

/-- Content of a regular file, if present. -/
def lookupFile (fs : FileSys) (p : List Char) : Option (List Nat) :=
  (fs.files.find? fun q => q.1 == p).map fun q => q.2

/-- Go `os.Create` followed by `io.Copy` of the full entry content: the
destination is created or truncated and holds exactly the content. -/
def createFile (fs : FileSys) (p : List Char) (c : List Nat) : FileSys :=
  ⟨(p, c) :: fs.files.filter fun q => !(q.1 == p), fs.dirs⟩

/-- Go `os.MkdirAll` reduced to recording the directory path. -/
def mkdirAll (fs : FileSys) (p : List Char) : FileSys :=
  ⟨fs.files, p :: fs.dirs⟩

/-- Go `filepath.Dir` on the slash-separated paths used here: everything up
to the final slash, or `.` when there is no slash. -/
def dirOf (p : List Char) : List Char :=
  match p.reverse.dropWhile (fun c => !(c == '/')) with
  | [] => ['.']
  | _ :: rest => rest.reverse

/-- `extractFile` of the emitted template (`epilogString` in
src/unnamed/part_000): join target and entry name; a directory entry becomes
`MkdirAll`; for a file entry the parent directory is created, then — when
`replace` is false and the destination exists — the routine returns nil with
no change; otherwise the destination is created or truncated and filled with
the entry content. -/
def extractFileM (fs : FileSys) (target : List Char) (e : ZipEntry)
    (replace : Bool) : FileSys :=
  let p := joinPath target e.name
  if e.isDir then mkdirAll fs p
  else
    let fs1 := mkdirAll fs (dirOf p)
    if !replace && fileExists fs1 p then fs1
    else createFile fs1 p e.content

theorem lookupFile_createFile (fs : FileSys) (p : List Char) (c : List Nat) :
    lookupFile (createFile fs p c) p = some c := by
  simp [lookupFile, createFile, List.find?_cons_of_pos]

/-- C4: for a file entry, when replace is disabled and the destination
already exists the extractor changes no file (in particular the destination's
content is unchanged) and returns without error; when the destination does
not exist or replace is enabled, the destination is created or truncated and
afterwards holds exactly the entry's content. -/
theorem extract_replace_policy (fs : FileSys) (target : List Char) (e : ZipEntry)
    (hfile : e.isDir = false) :
    (fileExists fs (joinPath target e.name) = true →
      (extractFileM fs target e false).files = fs.files ∧
      lookupFile (extractFileM fs target e false) (joinPath target e.name) =
        lookupFile fs (joinPath target e.name)) ∧
    (∀ rep : Bool, fileExists fs (joinPath target e.name) = false ∨ rep = true →
      lookupFile (extractFileM fs target e rep) (joinPath target e.name) =
        some e.content) := by
  obtain ⟨nm, ct, dfl⟩ := e
  have hdf : dfl = false := hfile
  subst hdf
  have key : ∀ rep : Bool, extractFileM fs target ⟨nm, ct, false⟩ rep =
      if (!rep && fileExists fs (joinPath target nm)) = true
      then mkdirAll fs (dirOf (joinPath target nm))
      else createFile (mkdirAll fs (dirOf (joinPath target nm)))
        (joinPath target nm) ct := fun rep => rfl
  constructor
  · intro hx
    rw [key false, if_pos (by simp [hx])]
    exact ⟨rfl, rfl⟩
  · intro rep hrep
    rw [key rep, if_neg ?_]
    · exact lookupFile_createFile _ _ _
    · intro hcon
      rcases hrep with hne | hrep
      · rw [hne] at hcon
        simp at hcon
      · subst hrep
        simp at hcon

theorem extract_replace_policy_witness :
    ((extractFileM ⟨[(joinPath "t".data "a.txt".data, [1])], []⟩ "t".data
        ⟨"a.txt".data, [2], false⟩ false).files =
          [(joinPath "t".data "a.txt".data, [1])] ∧
      lookupFile (extractFileM ⟨[(joinPath "t".data "a.txt".data, [1])], []⟩
          "t".data ⟨"a.txt".data, [2], false⟩ false)
          (joinPath "t".data "a.txt".data) =
        lookupFile ⟨[(joinPath "t".data "a.txt".data, [1])], []⟩
          (joinPath "t".data "a.txt".data)) ∧
    lookupFile (extractFileM ⟨[], []⟩ "t".data ⟨"a.txt".data, [2], false⟩ false)
        (joinPath "t".data "a.txt".data) = some [2] :=
  ⟨(extract_replace_policy ⟨[(joinPath "t".data "a.txt".data, [1])], []⟩
      "t".data ⟨"a.txt".data, [2], false⟩ rfl).1 (by decide),
    (extract_replace_policy ⟨[], []⟩ "t".data ⟨"a.txt".data, [2], false⟩ rfl).2
      false (Or.inl (by decide))⟩

end ZipGo
